import Mathlib

/-!
# Verification of the vintage-ai terminal gateway (`start_server.py`)

A shallow embedding of the per-connection session logic of
`src/start_server.py`: the input framer (prompt extraction from the
socket byte stream), the streaming text sanitizer `format_chunk`, and
the per-exchange streaming coordinator of `handle_client`, together
with theorems settling the specification claims about them.

Text is modelled as `List Char` (the server decodes incoming bytes with
`decode('ascii', errors='ignore')` and works on Python `str` values).
-/

set_option maxRecDepth 10000

namespace VintageAI

/-! ## Basic string primitives (Python `str` operations on `List Char`) -/

/-- Boolean test that `p` is an initial segment of `s`
(Python `str.startswith` on decoded text). -/
def leadsWith : List Char → List Char → Bool
  | [], _ => true
  | _ :: _, [] => false
  | a :: as, b :: bs => a = b && leadsWith as bs

/-- Python `str.find`: index of the first occurrence of `sub` in `s`,
`none` when absent (the code compares the result with `-1`). -/
def pyFind (sub : List Char) : List Char → Option Nat
  | [] => if leadsWith sub [] then some 0 else none
  | c :: cs =>
    if leadsWith sub (c :: cs) then some 0
    else (pyFind sub cs).map (· + 1)

/-- The characters stripped by Python `str.strip()` and rejected by the
regex class `\S` (ASCII whitespace). -/
def isPySpace (c : Char) : Bool :=
  c = ' ' || c = '\t' || c = '\n' || c = '\r' || c = '\x0b' || c = '\x0c'

/-- Python `str.strip()`: remove leading and trailing whitespace. -/
def pyStrip (s : List Char) : List Char :=
  ((s.dropWhile isPySpace).reverse.dropWhile isPySpace).reverse

/-- Python `str.replace(pat, rep)` with non-empty pattern `p :: ps`:
replace every non-overlapping occurrence, scanning left to right and
continuing after each replacement.  Carries explicit fuel (one unit per
scanned position) so that the definition is structural. -/
def replaceAllFuel (p : Char) (ps : List Char) (rep : List Char) :
    Nat → List Char → List Char
  | 0, s => s
  | _ + 1, [] => []
  | n + 1, c :: cs =>
    if leadsWith (p :: ps) (c :: cs) then
      rep ++ replaceAllFuel p ps rep n (cs.drop ps.length)
    else c :: replaceAllFuel p ps rep n cs

def replaceAll (p : Char) (ps : List Char) (rep : List Char) (s : List Char) : List Char :=
  replaceAllFuel p ps rep s.length s

theorem replaceAllFuel_stable (p : Char) (ps rep : List Char) :
    ∀ (n m : Nat) (s : List Char), s.length ≤ n → s.length ≤ m →
      replaceAllFuel p ps rep n s = replaceAllFuel p ps rep m s := by
  intro n
  induction n with
  | zero =>
    intro m s hn _
    have hs : s = [] := by
      cases s
      · rfl
      · simp at hn
    subst hs
    cases m <;> rfl
  | succ n2 ih =>
    intro m s hn hm
    cases m with
    | zero =>
      have hs : s = [] := by
        cases s
        · rfl
        · simp at hm
      subst hs
      rfl
    | succ m2 =>
      cases s with
      | nil => rfl
      | cons c cs =>
        simp only [replaceAllFuel]
        simp only [List.length_cons] at hn hm
        by_cases hl : leadsWith (p :: ps) (c :: cs) = true
        · rw [if_pos hl, if_pos hl,
            ih m2 (cs.drop ps.length) (by simp only [List.length_drop]; omega)
              (by simp only [List.length_drop]; omega)]
        · rw [if_neg hl, if_neg hl, ih m2 cs (by omega) (by omega)]

/-! ### Correctness facts about the primitives -/

theorem leadsWith_iff (p : List Char) : ∀ s, leadsWith p s = true ↔ ∃ t, p ++ t = s := by
  induction p with
  | nil =>
    intro s
    cases s with
    | nil => simp [leadsWith]
    | cons b bs => simp [leadsWith]
  | cons a as ih =>
    intro s
    cases s with
    | nil => simp [leadsWith]
    | cons b bs =>
      simp only [leadsWith, Bool.and_eq_true, decide_eq_true_eq, ih bs]
      constructor
      · rintro ⟨hab, t, ht⟩
        exact ⟨t, by simp [hab, ht]⟩
      · rintro ⟨t, ht⟩
        have hab : a = b := by
          have := congrArg (fun l => l.head?) ht
          simpa using this
        refine ⟨hab, t, ?_⟩
        have := congrArg (fun l => l.tail) ht
        simpa using this

theorem leadsWith_length {p s : List Char} (h : leadsWith p s = true) :
    p.length ≤ s.length := by
  obtain ⟨t, ht⟩ := (leadsWith_iff p s).mp h
  subst ht
  simp

theorem leadsWith_append {p s : List Char} (t : List Char)
    (h : leadsWith p s = true) : leadsWith p (s ++ t) = true := by
  obtain ⟨u, hu⟩ := (leadsWith_iff p s).mp h
  exact (leadsWith_iff p (s ++ t)).mpr ⟨u ++ t, by rw [← hu]; simp⟩

/-- Characterization of `pyFind`: `some i` means an occurrence starts at
`i` and none starts earlier. -/
theorem pyFind_eq_some_iff (sub : List Char) :
    ∀ (s : List Char) (i : Nat),
      pyFind sub s = some i ↔
        (leadsWith sub (s.drop i) = true ∧ ∀ j < i, leadsWith sub (s.drop j) = false) := by
  intro s
  induction s with
  | nil =>
    intro i
    simp only [pyFind]
    split
    · rename_i h
      constructor
      · rintro ⟨rfl⟩
        exact ⟨h, by omega⟩
      · rintro ⟨h1, h2⟩
        by_contra hne
        have hi : 0 < i := by
          rcases Nat.eq_zero_or_pos i with h0 | h0
          · subst h0
            exact absurd rfl hne
          · exact h0
        have := h2 0 hi
        simp at this
        rw [this] at h
        exact absurd h (by simp)
    · rename_i h
      constructor
      · intro he
        exact absurd he (by simp)
      · rintro ⟨h1, _⟩
        simp at h1
        rw [h1] at h
        exact absurd h (by simp)
  | cons c cs ih =>
    intro i
    simp only [pyFind]
    split
    · rename_i h
      constructor
      · rintro ⟨rfl⟩
        exact ⟨by simpa using h, by omega⟩
      · rintro ⟨h1, h2⟩
        by_contra hne
        have hi : 0 < i := by
          rcases Nat.eq_zero_or_pos i with h0 | h0
          · subst h0
            exact absurd rfl hne
          · exact h0
        have := h2 0 hi
        simp at this
        rw [this] at h
        exact absurd h (by simp)
    · rename_i h
      have hfalse : leadsWith sub (c :: cs) = false := by
        cases hlw : leadsWith sub (c :: cs)
        · rfl
        · exact absurd hlw h
      constructor
      · intro hmap
        rcases hmo : pyFind sub cs with _ | k
        · rw [hmo] at hmap
          exact absurd hmap (by simp)
        · rw [hmo] at hmap
          simp at hmap
          subst hmap
          obtain ⟨hk1, hk2⟩ := (ih k).mp hmo
          refine ⟨by simpa using hk1, ?_⟩
          intro j hj
          cases j with
          | zero => simpa using hfalse
          | succ j' =>
            have := hk2 j' (by omega)
            simpa using this
      · rintro ⟨h1, h2⟩
        cases i with
        | zero =>
          simp at h1
          rw [h1] at hfalse
          exact absurd hfalse (by simp)
        | succ i' =>
          have hmo : pyFind sub cs = some i' := by
            refine (ih i').mpr ⟨by simpa using h1, ?_⟩
            intro j hj
            have := h2 (j + 1) (by omega)
            simpa using this
          rw [hmo]
          rfl

theorem pyFind_eq_none_iff (sub : List Char) :
    ∀ (s : List Char),
      pyFind sub s = none ↔ ∀ j, leadsWith sub (s.drop j) = false := by
  intro s
  induction s with
  | nil =>
    simp only [pyFind]
    split
    · rename_i h
      constructor
      · intro he
        exact absurd he (by simp)
      · intro hall
        have := hall 0
        simp at this
        rw [this] at h
        exact absurd h (by simp)
    · rename_i h
      constructor
      · intro _ j
        cases hlw : leadsWith sub ([].drop j)
        · rfl
        · exact absurd (by simpa using hlw) h
      · intro _
        rfl
  | cons c cs ih =>
    simp only [pyFind]
    split
    · rename_i h
      constructor
      · intro he
        exact absurd he (by simp)
      · intro hall
        have := hall 0
        simp at this
        rw [this] at h
        exact absurd h (by simp)
    · rename_i h
      have hfalse : leadsWith sub (c :: cs) = false := by
        cases hlw : leadsWith sub (c :: cs)
        · rfl
        · exact absurd hlw h
      constructor
      · intro hmap j
        have hnone : pyFind sub cs = none := by
          rcases hmo : pyFind sub cs with _ | k
          · rfl
          · rw [hmo] at hmap
            exact absurd hmap (by simp)
        cases j with
        | zero => simpa using hfalse
        | succ j' => simpa using (ih.mp hnone) j'
      · intro hall
        have hnone : pyFind sub cs = none := by
          refine ih.mpr ?_
          intro j
          have := hall (j + 1)
          simpa using this
        rw [hnone]
        rfl

theorem leadsWith_mem {p s : List Char} (h : leadsWith p s = true) :
    ∀ c ∈ p, c ∈ s := by
  obtain ⟨t, ht⟩ := (leadsWith_iff p s).mp h
  subst ht
  intro c hc
  exact List.mem_append_left t hc

/-- Matching a pattern against `s ++ t` only depends on `s` when `s` is
at least as long as the pattern. -/
theorem leadsWith_append_left :
    ∀ (p s : List Char) (t : List Char), p.length ≤ s.length →
      leadsWith p (s ++ t) = leadsWith p s := by
  intro p
  induction p with
  | nil =>
    intro s t _
    cases s <;> simp [leadsWith]
  | cons a as ih =>
    intro s t hlen
    cases s with
    | nil => simp at hlen
    | cons b bs =>
      simp only [List.cons_append, leadsWith, List.append_eq]
      rw [ih bs t (by simpa using hlen)]

/-! ## The Input Framer (`handle_client`, lines 234-273)

Per-connection accumulation buffer plus the "Corrected Input Signal
Handling" block: find the first `"\r\n\r\n"`; if absent, the first
`"\n\n"`; split there, `strip()` the part before the terminator, drop a
leading `"> "`, and keep the rest of the buffer. -/

def crlfTerm : List Char := ['\r', '\n', '\r', '\n']

def lfTerm : List Char := ['\n', '\n']

def promptMarker : List Char := ['>', ' ']

/-- Prompt text recovery (lines 257-259): `input_buffer[:end_index].strip()`
followed by removal of a leading `"> "`. -/
def extractPrompt (raw : List Char) : List Char :=
  let p := pyStrip raw
  if leadsWith promptMarker p then p.drop 2 else p

/-- One pass of the input-signal handling (lines 244-273): at most one
prompt is extracted per `recv` call; CRLF-CRLF is looked up first and
wins whenever it occurs anywhere in the buffer. -/
def processOnce (buf : List Char) : Option (List Char × List Char) :=
  match pyFind crlfTerm buf with
  | some i => some (extractPrompt (buf.take i), buf.drop (i + 4))
  | none =>
    match pyFind lfTerm buf with
    | some i => some (extractPrompt (buf.take i), buf.drop (i + 2))
    | none => none

theorem processOnce_some_length {buf : List Char} {pr : List Char × List Char}
    (h : processOnce buf = some pr) : pr.2.length < buf.length := by
  unfold processOnce at h
  rcases h4 : pyFind crlfTerm buf with _ | i
  · rw [h4] at h
    rcases h2 : pyFind lfTerm buf with _ | i
    · rw [h2] at h
      exact absurd h (by simp)
    · rw [h2] at h
      obtain ⟨hlw, -⟩ := (pyFind_eq_some_iff _ _ _).mp h2
      have hlen := leadsWith_length hlw
      simp only [lfTerm, List.length_cons, List.length_nil, List.length_drop] at hlen
      cases h
      simp only [List.length_drop]
      omega
  · rw [h4] at h
    obtain ⟨hlw, -⟩ := (pyFind_eq_some_iff _ _ _).mp h4
    have hlen := leadsWith_length hlw
    simp only [crlfTerm, List.length_cons, List.length_nil, List.length_drop] at hlen
    cases h
    simp only [List.length_drop]
    omega

/-- Remainders produced by `processOnce` are suffixes of the buffer. -/
theorem processOnce_some_subset {buf : List Char} {pr : List Char × List Char}
    (h : processOnce buf = some pr) : ∀ c ∈ pr.2, c ∈ buf := by
  unfold processOnce at h
  rcases h4 : pyFind crlfTerm buf with _ | i
  · rw [h4] at h
    rcases h2 : pyFind lfTerm buf with _ | i
    · rw [h2] at h
      exact absurd h (by simp)
    · rw [h2] at h
      cases h
      intro c hc
      exact List.mem_of_mem_drop hc
  · rw [h4] at h
    cases h
    intro c hc
    exact List.mem_of_mem_drop hc

/-- Repeated extraction until no terminator remains, carried out with
explicit fuel. -/
def drainFuel : Nat → List Char → List (List Char) × List Char
  | 0, buf => ([], buf)
  | n + 1, buf =>
    match processOnce buf with
    | some pr =>
      let r := drainFuel n pr.2
      (pr.1 :: r.1, r.2)
    | none => ([], buf)

theorem processOnce_nil : processOnce [] = none := by decide

theorem drainFuel_stable :
    ∀ (n m : Nat) (buf : List Char), buf.length ≤ n → buf.length ≤ m →
      drainFuel n buf = drainFuel m buf := by
  intro n
  induction n with
  | zero =>
    intro m buf hn _
    have hb : buf = [] := by
      cases buf
      · rfl
      · simp at hn
    subst hb
    cases m with
    | zero => rfl
    | succ m' => simp [drainFuel, processOnce_nil]
  | succ n' ih =>
    intro m buf hn hm
    cases m with
    | zero =>
      have hb : buf = [] := by
        cases buf
        · rfl
        · simp at hm
      subst hb
      simp [drainFuel, processOnce_nil]
    | succ m' =>
      simp only [drainFuel]
      rcases h : processOnce buf with _ | pr
      · rfl
      · have hlt := processOnce_some_length h
        show (pr.1 :: (drainFuel n' pr.2).1, (drainFuel n' pr.2).2) =
          (pr.1 :: (drainFuel m' pr.2).1, (drainFuel m' pr.2).2)
        rw [ih m' pr.2 (by omega) (by omega)]

/-- Drain the accumulation buffer: extract prompts until no terminator
remains (what repeated loop iterations with no new input would do). -/
def drain (buf : List Char) : List (List Char) × List Char :=
  drainFuel buf.length buf

theorem drain_none {buf : List Char} (h : processOnce buf = none) :
    drain buf = ([], buf) := by
  unfold drain
  cases hl : buf.length with
  | zero => rfl
  | succ n => simp [drainFuel, h]

theorem drain_step {buf : List Char} {pr : List Char × List Char}
    (h : processOnce buf = some pr) :
    drain buf = (pr.1 :: (drain pr.2).1, (drain pr.2).2) := by
  have hlt := processOnce_some_length h
  unfold drain
  cases hl : buf.length with
  | zero => omega
  | succ n =>
    simp only [drainFuel, h]
    rw [drainFuel_stable n pr.2.length pr.2 (by omega) (by omega)]

theorem drain_rest_none (buf : List Char) : processOnce (drain buf).2 = none := by
  rcases h : processOnce buf with _ | pr
  · rw [drain_none h]
    exact h
  · rw [drain_step h]
    exact drain_rest_none pr.2
  termination_by buf.length
  decreasing_by exact processOnce_some_length h

theorem drain_rest_subset (buf : List Char) : ∀ c ∈ (drain buf).2, c ∈ buf := by
  rcases h : processOnce buf with _ | pr
  · rw [drain_none h]
    exact fun c hc => hc
  · rw [drain_step h]
    intro c hc
    exact processOnce_some_subset h c (drain_rest_subset pr.2 c hc)
  termination_by buf.length
  decreasing_by exact processOnce_some_length h

/-- On a carriage-return-free buffer the CRLF-CRLF lookup never fires. -/
theorem pyFind_crlf_none {buf : List Char} (hcr : '\r' ∉ buf) :
    pyFind crlfTerm buf = none := by
  refine (pyFind_eq_none_iff _ _).mpr ?_
  intro j
  cases hlw : leadsWith crlfTerm (buf.drop j)
  · rfl
  · have : '\r' ∈ buf.drop j := leadsWith_mem hlw '\r' (by simp [crlfTerm])
    exact absurd (List.mem_of_mem_drop this) hcr

/-- On carriage-return-free input, a single extraction from a buffer
commutes with appending further (carriage-return-free) bytes. -/
theorem processOnce_append {s : List Char} (t : List Char)
    (hcr : '\r' ∉ s) (hcrt : '\r' ∉ t) {pr : List Char × List Char}
    (h : processOnce s = some pr) :
    processOnce (s ++ t) = some (pr.1, pr.2 ++ t) := by
  have hcrs : pyFind crlfTerm s = none := pyFind_crlf_none hcr
  have hcrst : pyFind crlfTerm (s ++ t) = none := by
    refine pyFind_crlf_none ?_
    intro hmem
    rcases List.mem_append.mp hmem with hs | ht
    · exact hcr hs
    · exact hcrt ht
  unfold processOnce at h
  rw [hcrs] at h
  rcases h2 : pyFind lfTerm s with _ | i
  · rw [h2] at h
    exact absurd h (by simp)
  · rw [h2] at h
    cases h
    obtain ⟨hlw, hmin⟩ := (pyFind_eq_some_iff _ _ _).mp h2
    have hilen : i + 2 ≤ s.length := by
      have := leadsWith_length hlw
      simp only [lfTerm, List.length_cons, List.length_nil, List.length_drop] at this
      by_cases hle : i ≤ s.length
      · omega
      · rw [List.drop_eq_nil_of_le (by omega)] at hlw
        exact absurd hlw (by simp [lfTerm, leadsWith])
    have hfind : pyFind lfTerm (s ++ t) = some i := by
      refine (pyFind_eq_some_iff _ _ _).mpr ⟨?_, ?_⟩
      · rw [List.drop_append_of_le_length (by omega)]
        exact leadsWith_append t hlw
      · intro j hj
        rw [List.drop_append_of_le_length (by omega),
          leadsWith_append_left lfTerm (s.drop j) t
            (by simp only [lfTerm, List.length_cons, List.length_nil, List.length_drop]; omega)]
        exact hmin j hj
    unfold processOnce
    rw [hcrst, hfind]
    show some (extractPrompt ((s ++ t).take i), (s ++ t).drop (i + 2)) =
      some ((extractPrompt (s.take i), s.drop (i + 2)).1,
        (extractPrompt (s.take i), s.drop (i + 2)).2 ++ t)
    rw [List.take_append_of_le_length (by omega),
      List.drop_append_of_le_length (by omega)]

/-- Draining distributes over appending new bytes (carriage-return-free
case): the prompts of `s` come out first, then the prompts of the
leftover joined with `t`. -/
theorem drain_append (s t : List Char) (hcr : '\r' ∉ s) (hcrt : '\r' ∉ t) :
    drain (s ++ t) =
      ((drain s).1 ++ (drain ((drain s).2 ++ t)).1,
        (drain ((drain s).2 ++ t)).2) := by
  rcases h : processOnce s with _ | pr
  · rw [drain_none h]
    simp
  · have hlt := processOnce_some_length h
    have happ := processOnce_append t hcr hcrt h
    rw [drain_step h, drain_step happ]
    have hcr2 : '\r' ∉ pr.2 := fun hm => hcr (processOnce_some_subset h '\r' hm)
    have ih := drain_append pr.2 t hcr2 hcrt
    rw [ih]
    simp
  termination_by s.length
  decreasing_by exact processOnce_some_length h

/-! ## Feeding models -/

/-- One iteration of the receive loop body (lines 236-273): decode and
append the received chunk, then attempt a single extraction.  The state
is (prompts extracted so far, accumulation buffer). -/
def recvStep (st : List (List Char) × List Char) (chunk : List Char) :
    List (List Char) × List Char :=
  let buf := st.2 ++ chunk
  match processOnce buf with
  | some pr => (st.1 ++ [pr.1], pr.2)
  | none => (st.1, buf)

/-- Feed a list of received chunks through the per-receive framer. -/
def recvRun (chunks : List (List Char)) : List (List Char) × List Char :=
  chunks.foldl recvStep ([], [])

/-- Feed a chunk and then drain: extraction is repeated until no
terminator remains before the next chunk is taken. -/
def drainStep (st : List (List Char) × List Char) (chunk : List Char) :
    List (List Char) × List Char :=
  let r := drain (st.2 ++ chunk)
  (st.1 ++ r.1, r.2)

/-- Feed a list of chunks through the draining framer. -/
def drainRun (chunks : List (List Char)) : List (List Char) × List Char :=
  chunks.foldl drainStep ([], [])

theorem drainRun_go :
    ∀ (chunks : List (List Char)) (acc : List (List Char)) (buf : List Char),
      processOnce buf = none → '\r' ∉ buf → (∀ c ∈ chunks, '\r' ∉ c) →
      chunks.foldl drainStep (acc, buf) =
        (acc ++ (drain (buf ++ chunks.flatten)).1, (drain (buf ++ chunks.flatten)).2) := by
  intro chunks
  induction chunks with
  | nil =>
    intro acc buf hq _ _
    simp [drain_none hq]
  | cons c cs ih =>
    intro acc buf hq hcr hall
    have hcrc : '\r' ∉ c := hall c (by simp)
    have hcrcs : ∀ d ∈ cs, '\r' ∉ d := fun d hd => hall d (by simp [hd])
    have hcrflat : '\r' ∉ cs.flatten := by
      intro hm
      obtain ⟨l, hl, hcl⟩ := List.mem_flatten.mp hm
      exact hcrcs l hl hcl
    simp only [List.foldl_cons, List.flatten_cons]
    have hstep : drainStep (acc, buf) c = (acc ++ (drain (buf ++ c)).1, (drain (buf ++ c)).2) := rfl
    rw [hstep, ih _ _ (drain_rest_none (buf ++ c))
      (fun hm => (List.mem_append.mp (drain_rest_subset (buf ++ c) '\r' hm)).elim hcr hcrc)
      hcrcs]
    have hsplit := drain_append (buf ++ c) cs.flatten
      (fun hm => (List.mem_append.mp hm).elim hcr hcrc) hcrflat
    rw [List.append_assoc] at hsplit ⊢
    rw [hsplit]
    try simp [List.append_assoc]

/-! ## Claims C3 and C4: framer properties -/

/-- C3, counterexample.  Feeding the bytes `"a\n\nb\r\n\r\n"` in one
receive call yields the single prompt `"a\n\nb"` (the CRLF-CRLF
occurrence wins and only one extraction happens per call), while
feeding them as `"a\n\n"` then `"b\r\n\r\n"` yields the two prompts
`"a"` and `"b"`: chunk boundaries change the extracted prompts. -/
theorem framer_not_chunk_invariant :
    (recvRun [("a\n\n").toList, ("b\r\n\r\n").toList]).1 ≠
      (recvRun [("a\n\nb\r\n\r\n").toList]).1 := by
  decide

/-- C3, amended.  For carriage-return-free input, feeding the chunks one
call at a time with draining (extraction repeated until no terminator
remains) yields exactly the prompts and leftover buffer of feeding all
the bytes in a single drained call. -/
theorem framer_chunk_invariance_cr_free (chunks : List (List Char))
    (h : ∀ c ∈ chunks, '\r' ∉ c) :
    drainRun chunks = drainRun [chunks.flatten] := by
  unfold drainRun
  rw [drainRun_go chunks [] [] processOnce_nil (by simp) h]
  simp only [List.foldl_cons, List.foldl_nil, drainStep, List.nil_append]

/-- Witness for `framer_chunk_invariance_cr_free` at the concrete split
`"hel" / "lo\n\nwo" / "rld\n\n"` of `"hello\n\nworld\n\n"`. -/
theorem framer_chunk_invariance_cr_free_witness :
    drainRun [("hel").toList, ("lo\n\nwo").toList, ("rld\n\n").toList] =
      drainRun [([("hel").toList, ("lo\n\nwo").toList, ("rld\n\n").toList]).flatten] :=
  framer_chunk_invariance_cr_free
    [("hel").toList, ("lo\n\nwo").toList, ("rld\n\n").toList] (by decide)

/-- C4, confirmed.  If the buffer contains a `"\r\n\r\n"` occurrence
(first one at `i`), the framer splits there even when a `"\n\n"`
occurrence exists first at an earlier `j`; and when no `"\r\n\r\n"`
occurrence exists at all, it splits at the first `"\n\n"` occurrence. -/
theorem crlf_priority_over_lf :
    (∀ (buf : List Char) (i j : Nat),
      (leadsWith crlfTerm (buf.drop i) = true ∧
        ∀ k < i, leadsWith crlfTerm (buf.drop k) = false) →
      (leadsWith lfTerm (buf.drop j) = true ∧
        ∀ k < j, leadsWith lfTerm (buf.drop k) = false) →
      processOnce buf = some (extractPrompt (buf.take i), buf.drop (i + 4))) ∧
    (∀ (buf : List Char) (j : Nat),
      (∀ k < buf.length, leadsWith crlfTerm (buf.drop k) = false) →
      (leadsWith lfTerm (buf.drop j) = true ∧
        ∀ k < j, leadsWith lfTerm (buf.drop k) = false) →
      processOnce buf = some (extractPrompt (buf.take j), buf.drop (j + 2))) := by
  constructor
  · intro buf i j hi _
    have hfound : pyFind crlfTerm buf = some i := (pyFind_eq_some_iff _ _ _).mpr hi
    unfold processOnce
    rw [hfound]
  · intro buf j hnone hj
    have hcnone : pyFind crlfTerm buf = none := by
      refine (pyFind_eq_none_iff _ _).mpr ?_
      intro k
      by_cases hk : k < buf.length
      · exact hnone k hk
      · rw [List.drop_eq_nil_of_le (by omega)]
        rfl
    have hfound : pyFind lfTerm buf = some j := (pyFind_eq_some_iff _ _ _).mpr hj
    unfold processOnce
    rw [hcnone, hfound]

/-- Witness for `crlf_priority_over_lf`: the spec's own instance, a
buffer with `"\n\n"` at position 5 and `"\r\n\r\n"` at position 20
(split taken at 20), and the all-LF buffer `"hello\n\nworld"` (split
taken at 5). -/
theorem crlf_priority_over_lf_witness :
    processOnce (("abcde\n\nfghijklmnopqr\r\n\r\nrest").toList) =
      some (extractPrompt ((("abcde\n\nfghijklmnopqr\r\n\r\nrest").toList).take 20),
        (("abcde\n\nfghijklmnopqr\r\n\r\nrest").toList).drop 24) ∧
    processOnce (("hello\n\nworld").toList) =
      some (extractPrompt ((("hello\n\nworld").toList).take 5),
        (("hello\n\nworld").toList).drop 7) :=
  ⟨crlf_priority_over_lf.1 (("abcde\n\nfghijklmnopqr\r\n\r\nrest").toList) 20 5
      (by decide) (by decide),
    crlf_priority_over_lf.2 (("hello\n\nworld").toList) 5
      (by decide) (by decide)⟩

/-! ## The Text Sanitizer (`format_chunk`, lines 184-207)

The two emphasis passes are `re.sub(r'\*\*(\S[^*]*\S)\*\*', r'\1', ...)`
and `re.sub(r'\*(\S[^*]*\S)\*', r'\1', ...)`: leftmost match, greedy
`[^*]*` with backtracking, scanning resuming after each replacement.
They are modelled by an explicit matcher: at a candidate start the
opening stars and the first `\S` are fixed, and the `[^*]*` length is
tried from the maximal star-free run downwards. -/

/-- Attempt to close a bold match with a `[^*]*` part of length exactly
`j`: the next character must be non-whitespace (`\S`, which may itself
be `'*'`) and must be followed by the closing `**`. -/
def boldCloseAt (body : List Char) (j : Nat) : Option (Nat × Char × List Char) :=
  match body.drop j with
  | d :: e1 :: e2 :: tail =>
    if e1 = '*' ∧ e2 = '*' ∧ ¬ isPySpace d then some (j, d, tail) else none
  | _ => none

/-- Backtracking search for a closing position, longest `[^*]*` first. -/
def boldClose (body : List Char) : Nat → Option (Nat × Char × List Char)
  | 0 => boldCloseAt body 0
  | j + 1 => (boldCloseAt body (j + 1)).orElse fun _ => boldClose body j

/-- Match `\*\*(\S[^*]*\S)\*\*` at the start of the list; on success
return the group content and the text after the match. -/
def matchBold : List Char → Option (List Char × List Char)
  | a :: b :: c0 :: body =>
    if a = '*' ∧ b = '*' ∧ ¬ isPySpace c0 then
      match boldClose body (body.takeWhile (· ≠ '*')).length with
      | some (j, d, tail) => some (c0 :: (body.take j ++ [d]), tail)
      | none => none
    else none
  | _ => none

/-- Attempt to close an italic match with a `[^*]*` part of length `j`. -/
def italCloseAt (body : List Char) (j : Nat) : Option (Nat × Char × List Char) :=
  match body.drop j with
  | d :: e1 :: tail =>
    if e1 = '*' ∧ ¬ isPySpace d then some (j, d, tail) else none
  | _ => none

def italClose (body : List Char) : Nat → Option (Nat × Char × List Char)
  | 0 => italCloseAt body 0
  | j + 1 => (italCloseAt body (j + 1)).orElse fun _ => italClose body j

/-- Match `\*(\S[^*]*\S)\*` at the start of the list. -/
def matchItal : List Char → Option (List Char × List Char)
  | a :: c0 :: body =>
    if a = '*' ∧ ¬ isPySpace c0 then
      match italClose body (body.takeWhile (· ≠ '*')).length with
      | some (j, d, tail) => some (c0 :: (body.take j ++ [d]), tail)
      | none => none
    else none
  | _ => none

theorem boldCloseAt_length {body : List Char} {j k : Nat} {d : Char}
    {tail : List Char} (h : boldCloseAt body j = some (k, d, tail)) :
    3 + tail.length ≤ body.length := by
  unfold boldCloseAt at h
  rcases hd : body.drop j with _ | ⟨e, rest⟩ <;> rw [hd] at h
  · exact absurd h (by simp)
  rcases rest with _ | ⟨e1, rest1⟩
  · exact absurd h (by simp)
  rcases rest1 with _ | ⟨e2, rest2⟩
  · exact absurd h (by simp)
  replace h : (if e1 = '*' ∧ e2 = '*' ∧ ¬ isPySpace e = true then
      some (j, e, rest2) else none) = some (k, d, tail) := h
  by_cases hc : e1 = '*' ∧ e2 = '*' ∧ ¬ isPySpace e = true
  · rw [if_pos hc] at h
    cases h
    have := congrArg List.length hd
    simp only [List.length_drop, List.length_cons] at this
    omega
  · rw [if_neg hc] at h
    exact absurd h (by simp)

theorem boldClose_length {body : List Char} :
    ∀ {j k : Nat} {d : Char} {tail : List Char},
      boldClose body j = some (k, d, tail) → 3 + tail.length ≤ body.length := by
  intro j
  induction j with
  | zero =>
    intro k d tail h
    exact boldCloseAt_length h
  | succ j2 ih =>
    intro k d tail h
    unfold boldClose at h
    rcases ha : boldCloseAt body (j2 + 1) with _ | trip
    · rw [ha] at h
      simp only [Option.orElse, Option.none_orElse] at h
      exact ih h
    · rw [ha] at h
      simp only [Option.orElse, Option.some_orElse] at h
      cases h
      exact boldCloseAt_length ha

theorem italCloseAt_length {body : List Char} {j k : Nat} {d : Char}
    {tail : List Char} (h : italCloseAt body j = some (k, d, tail)) :
    2 + tail.length ≤ body.length := by
  unfold italCloseAt at h
  rcases hd : body.drop j with _ | ⟨e, rest⟩ <;> rw [hd] at h
  · exact absurd h (by simp)
  rcases rest with _ | ⟨e1, rest1⟩
  · exact absurd h (by simp)
  replace h : (if e1 = '*' ∧ ¬ isPySpace e = true then
      some (j, e, rest1) else none) = some (k, d, tail) := h
  by_cases hc : e1 = '*' ∧ ¬ isPySpace e = true
  · rw [if_pos hc] at h
    cases h
    have := congrArg List.length hd
    simp only [List.length_drop, List.length_cons] at this
    omega
  · rw [if_neg hc] at h
    exact absurd h (by simp)

theorem italClose_length {body : List Char} :
    ∀ {j k : Nat} {d : Char} {tail : List Char},
      italClose body j = some (k, d, tail) → 2 + tail.length ≤ body.length := by
  intro j
  induction j with
  | zero =>
    intro k d tail h
    exact italCloseAt_length h
  | succ j2 ih =>
    intro k d tail h
    unfold italClose at h
    rcases ha : italCloseAt body (j2 + 1) with _ | trip
    · rw [ha] at h
      simp only [Option.orElse, Option.none_orElse] at h
      exact ih h
    · rw [ha] at h
      simp only [Option.orElse, Option.some_orElse] at h
      cases h
      exact italCloseAt_length ha

theorem matchBold_length {s : List Char} {pr : List Char × List Char}
    (h : matchBold s = some pr) : pr.2.length < s.length := by
  unfold matchBold at h
  rcases s with _ | ⟨a, s1⟩
  · exact absurd h (by simp)
  rcases s1 with _ | ⟨b, s2⟩
  · exact absurd h (by simp)
  rcases s2 with _ | ⟨c0, body⟩
  · exact absurd h (by simp)
  replace h : (if a = '*' ∧ b = '*' ∧ ¬ isPySpace c0 = true then
      match boldClose body (body.takeWhile (· ≠ '*')).length with
      | some (j, d, tail) => some (c0 :: (body.take j ++ [d]), tail)
      | none => none
    else none) = some pr := h
  by_cases hc : a = '*' ∧ b = '*' ∧ ¬ isPySpace c0 = true
  · rw [if_pos hc] at h
    rcases hbc : boldClose body (body.takeWhile (· ≠ '*')).length with _ | ⟨j, d, tail⟩ <;>
      rw [hbc] at h
    · exact absurd h (by simp)
    · replace h : some (c0 :: (body.take j ++ [d]), tail) = some pr := h
      cases h
      have := boldClose_length hbc
      simp only [List.length_cons]
      omega
  · rw [if_neg hc] at h
    exact absurd h (by simp)

theorem matchItal_length {s : List Char} {pr : List Char × List Char}
    (h : matchItal s = some pr) : pr.2.length < s.length := by
  unfold matchItal at h
  rcases s with _ | ⟨a, s1⟩
  · exact absurd h (by simp)
  rcases s1 with _ | ⟨c0, body⟩
  · exact absurd h (by simp)
  replace h : (if a = '*' ∧ ¬ isPySpace c0 = true then
      match italClose body (body.takeWhile (· ≠ '*')).length with
      | some (j, d, tail) => some (c0 :: (body.take j ++ [d]), tail)
      | none => none
    else none) = some pr := h
  by_cases hc : a = '*' ∧ ¬ isPySpace c0 = true
  · rw [if_pos hc] at h
    rcases hbc : italClose body (body.takeWhile (· ≠ '*')).length with _ | ⟨j, d, tail⟩ <;>
      rw [hbc] at h
    · exact absurd h (by simp)
    · replace h : some (c0 :: (body.take j ++ [d]), tail) = some pr := h
      cases h
      have := italClose_length hbc
      simp only [List.length_cons]
      omega
  · rw [if_neg hc] at h
    exact absurd h (by simp)

/-- `re.sub` scan for the bold pattern, with explicit fuel: try a match
at each position; on success emit the group and resume after the match,
otherwise emit the character and move on by one. -/
def subBoldFuel : Nat → List Char → List Char
  | 0, s => s
  | _ + 1, [] => []
  | n + 1, c :: cs =>
    match matchBold (c :: cs) with
    | some pr => pr.1 ++ subBoldFuel n pr.2
    | none => c :: subBoldFuel n cs

def subBold (s : List Char) : List Char := subBoldFuel s.length s

def subItalFuel : Nat → List Char → List Char
  | 0, s => s
  | _ + 1, [] => []
  | n + 1, c :: cs =>
    match matchItal (c :: cs) with
    | some pr => pr.1 ++ subItalFuel n pr.2
    | none => c :: subItalFuel n cs

def subItal (s : List Char) : List Char := subItalFuel s.length s

theorem subBoldFuel_stable :
    ∀ (n m : Nat) (s : List Char), s.length ≤ n → s.length ≤ m →
      subBoldFuel n s = subBoldFuel m s := by
  intro n
  induction n with
  | zero =>
    intro m s hn _
    have hs : s = [] := by
      cases s
      · rfl
      · simp at hn
    subst hs
    cases m <;> rfl
  | succ n2 ih =>
    intro m s hn hm
    cases m with
    | zero =>
      have hs : s = [] := by
        cases s
        · rfl
        · simp at hm
      subst hs
      rfl
    | succ m2 =>
      cases s with
      | nil => rfl
      | cons c cs =>
        simp only [subBoldFuel]
        rcases h : matchBold (c :: cs) with _ | pr
        · rw [ih m2 cs (by simpa using hn) (by simpa using hm)]
        · have hl := matchBold_length h
          simp only [List.length_cons] at hl hn hm
          show pr.1 ++ subBoldFuel n2 pr.2 = pr.1 ++ subBoldFuel m2 pr.2
          rw [ih m2 pr.2 (by omega) (by omega)]

theorem subItalFuel_stable :
    ∀ (n m : Nat) (s : List Char), s.length ≤ n → s.length ≤ m →
      subItalFuel n s = subItalFuel m s := by
  intro n
  induction n with
  | zero =>
    intro m s hn _
    have hs : s = [] := by
      cases s
      · rfl
      · simp at hn
    subst hs
    cases m <;> rfl
  | succ n2 ih =>
    intro m s hn hm
    cases m with
    | zero =>
      have hs : s = [] := by
        cases s
        · rfl
        · simp at hm
      subst hs
      rfl
    | succ m2 =>
      cases s with
      | nil => rfl
      | cons c cs =>
        simp only [subItalFuel]
        rcases h : matchItal (c :: cs) with _ | pr
        · rw [ih m2 cs (by simpa using hn) (by simpa using hm)]
        · have hl := matchItal_length h
          simp only [List.length_cons] at hl hn hm
          show pr.1 ++ subItalFuel n2 pr.2 = pr.1 ++ subItalFuel m2 pr.2
          rw [ih m2 pr.2 (by omega) (by omega)]

theorem subBold_nil : subBold [] = [] := rfl

theorem subBold_cons_match {c : Char} {cs : List Char} {pr : List Char × List Char}
    (h : matchBold (c :: cs) = some pr) :
    subBold (c :: cs) = pr.1 ++ subBold pr.2 := by
  unfold subBold
  have hlt := matchBold_length h
  simp only [List.length_cons] at hlt
  simp only [List.length_cons, subBoldFuel, h]
  show pr.1 ++ subBoldFuel cs.length pr.2 = pr.1 ++ subBoldFuel pr.2.length pr.2
  rw [subBoldFuel_stable cs.length pr.2.length pr.2 (by omega) (by omega)]

theorem subBold_cons_nomatch {c : Char} {cs : List Char}
    (h : matchBold (c :: cs) = none) :
    subBold (c :: cs) = c :: subBold cs := by
  unfold subBold
  simp only [List.length_cons, subBoldFuel, h]

theorem subItal_nil : subItal [] = [] := rfl

theorem subItal_cons_match {c : Char} {cs : List Char} {pr : List Char × List Char}
    (h : matchItal (c :: cs) = some pr) :
    subItal (c :: cs) = pr.1 ++ subItal pr.2 := by
  unfold subItal
  have hlt := matchItal_length h
  simp only [List.length_cons] at hlt
  simp only [List.length_cons, subItalFuel, h]
  show pr.1 ++ subItalFuel cs.length pr.2 = pr.1 ++ subItalFuel pr.2.length pr.2
  rw [subItalFuel_stable cs.length pr.2.length pr.2 (by omega) (by omega)]

theorem subItal_cons_nomatch {c : Char} {cs : List Char}
    (h : matchItal (c :: cs) = none) :
    subItal (c :: cs) = c :: subItal cs := by
  unfold subItal
  simp only [List.length_cons, subItalFuel, h]

/-- Line-ending normalization (line 205):
`.replace('\r\n', '\n').replace('\r', '\n').replace('\n', '\r\n')`. -/
def normalizeNewlines (s : List Char) : List Char :=
  replaceAll '\n' [] ['\r', '\n']
    (replaceAll '\r' [] ['\n']
      (replaceAll '\r' ['\n'] ['\n'] s))

/-- The Text Sanitizer `format_chunk` (lines 184-207): emphasis-removal
regexes, backtick and `'>'` removal, the three HTML entities, then
CRLF normalization.  Empty chunks short-circuit to the empty string. -/
def format_chunk (s : List Char) : List Char :=
  if s = [] then []
  else
    normalizeNewlines
      (replaceAll '&' ['g', 't', ';'] ['>']
        (replaceAll '&' ['l', 't', ';'] ['<']
          (replaceAll '&' ['a', 'm', 'p', ';'] ['&']
            (replaceAll '>' [] []
              (replaceAll '`' [] []
                (subItal (subBold s)))))))

/-! ### Helper lemmas about the sanitizer passes -/

theorem replaceAll_nil (p : Char) (ps rep : List Char) :
    replaceAll p ps rep [] = [] := rfl

theorem replaceAll_cons (p : Char) (ps rep : List Char) (c : Char) (cs : List Char) :
    replaceAll p ps rep (c :: cs) =
      if leadsWith (p :: ps) (c :: cs) then rep ++ replaceAll p ps rep (cs.drop ps.length)
      else c :: replaceAll p ps rep cs := by
  unfold replaceAll
  simp only [List.length_cons, replaceAllFuel]
  by_cases hl : leadsWith (p :: ps) (c :: cs) = true
  · rw [if_pos hl, if_pos hl,
      replaceAllFuel_stable p ps rep cs.length (cs.drop ps.length).length (cs.drop ps.length)
        (by simp only [List.length_drop]; omega) le_rfl]
  · rw [if_neg hl, if_neg hl,
      replaceAllFuel_stable p ps rep cs.length cs.length cs le_rfl le_rfl]

theorem leadsWith_cons_ne {p c : Char} {ps cs : List Char} (h : c ≠ p) :
    leadsWith (p :: ps) (c :: cs) = false := by
  simp only [leadsWith, Bool.and_eq_false_iff]
  left
  simpa using fun he => h he.symm

/-- A pattern whose first character does not occur in `s` never fires. -/
theorem replaceAll_not_mem {p : Char} (ps rep : List Char) :
    ∀ s : List Char, p ∉ s → replaceAll p ps rep s = s := by
  intro s
  induction s with
  | nil =>
    intro _
    exact replaceAll_nil p ps rep
  | cons c cs ih =>
    intro hmem
    rw [replaceAll_cons, if_neg, ih (fun hc => hmem (by simp [hc]))]
    rw [leadsWith_cons_ne (fun he => hmem (by simp [he]))]
    simp

theorem mem_replaceAll_bounded {p : Char} {ps rep : List Char} :
    ∀ (n : Nat) (s : List Char), s.length ≤ n →
      ∀ {x : Char}, x ∈ replaceAll p ps rep s → x ∈ s ∨ x ∈ rep := by
  intro n
  induction n with
  | zero =>
    intro s hn x hx
    have hs : s = [] := by
      cases s
      · rfl
      · simp at hn
    subst hs
    rw [replaceAll_nil] at hx
    simp at hx
  | succ n2 ih =>
    intro s hn x hx
    cases s with
    | nil =>
      rw [replaceAll_nil] at hx
      simp at hx
    | cons c cs =>
      rw [replaceAll_cons] at hx
      simp only [List.length_cons] at hn
      by_cases hl : leadsWith (p :: ps) (c :: cs) = true
      · rw [if_pos hl] at hx
        rcases List.mem_append.mp hx with hr | hs
        · exact Or.inr hr
        · rcases ih (cs.drop ps.length)
            (by simp only [List.length_drop]; omega) hs with h1 | h2
          · exact Or.inl (by simp [List.mem_of_mem_drop h1])
          · exact Or.inr h2
      · rw [if_neg hl] at hx
        rcases List.mem_cons.mp hx with rfl | hs
        · exact Or.inl (by simp)
        · rcases ih cs (by omega) hs with h1 | h2
          · exact Or.inl (by simp [h1])
          · exact Or.inr h2

/-- Characters of a `replaceAll` output come from the input or from the
replacement text. -/
theorem mem_replaceAll {p : Char} {ps rep : List Char} {s : List Char} {x : Char}
    (hx : x ∈ replaceAll p ps rep s) : x ∈ s ∨ x ∈ rep :=
  mem_replaceAll_bounded s.length s le_rfl hx

/-- Deleting all occurrences of a single character removes it. -/
theorem replaceAll_removes {p : Char} :
    ∀ s : List Char, p ∉ replaceAll p [] [] s := by
  intro s
  induction s with
  | nil => simp [replaceAll_nil]
  | cons c cs ih =>
    rw [replaceAll_cons]
    by_cases hl : leadsWith [p] (c :: cs) = true
    · rw [if_pos hl]
      simpa using ih
    · rw [if_neg hl]
      intro hmem
      rcases List.mem_cons.mp hmem with he | hs
      · exact hl (by simp [leadsWith, he])
      · exact ih hs

theorem matchBold_none_two {a b : Char} (rest : List Char) (h : b ≠ '*') :
    matchBold (a :: b :: rest) = none := by
  cases rest with
  | nil => rfl
  | cons c0 body =>
    show (if a = '*' ∧ b = '*' ∧ ¬ isPySpace c0 = true then
        match boldClose body (body.takeWhile (· ≠ '*')).length with
        | some (j, d, tail) => some (c0 :: (body.take j ++ [d]), tail)
        | none => none
      else none) = none
    rw [if_neg]
    simp [h]

theorem matchBold_none_head {c : Char} (cs : List Char) (h : c ≠ '*') :
    matchBold (c :: cs) = none := by
  cases cs with
  | nil => rfl
  | cons b rest =>
    cases rest with
    | nil => rfl
    | cons c0 body =>
      show (if c = '*' ∧ b = '*' ∧ ¬ isPySpace c0 = true then
          match boldClose body (body.takeWhile (· ≠ '*')).length with
          | some (j, d, tail) => some (c0 :: (body.take j ++ [d]), tail)
          | none => none
        else none) = none
      rw [if_neg]
      simp [h]

theorem matchItal_none_head {c : Char} (cs : List Char) (h : c ≠ '*') :
    matchItal (c :: cs) = none := by
  cases cs with
  | nil => rfl
  | cons c0 body =>
    show (if c = '*' ∧ ¬ isPySpace c0 = true then
        match italClose body (body.takeWhile (· ≠ '*')).length with
        | some (j, d, tail) => some (c0 :: (body.take j ++ [d]), tail)
        | none => none
      else none) = none
    rw [if_neg]
    simp [h]

/-- The bold pass leaves star-free text unchanged. -/
theorem subBold_id : ∀ s : List Char, (∀ x ∈ s, x ≠ '*') → subBold s = s := by
  intro s
  induction s with
  | nil => intro _; rfl
  | cons c cs ih =>
    intro h
    rw [subBold_cons_nomatch (matchBold_none_head cs (h c (by simp))),
      ih (fun x hx => h x (by simp [hx]))]

/-- The italic pass leaves star-free text unchanged. -/
theorem subItal_id : ∀ s : List Char, (∀ x ∈ s, x ≠ '*') → subItal s = s := by
  intro s
  induction s with
  | nil => intro _; rfl
  | cons c cs ih =>
    intro h
    rw [subItal_cons_nomatch (matchItal_none_head cs (h c (by simp))),
      ih (fun x hx => h x (by simp [hx]))]

/-- The bold pass also ignores star-free text with one trailing star. -/
theorem subBold_star_end : ∀ u : List Char, (∀ x ∈ u, x ≠ '*') →
    subBold (u ++ ['*']) = u ++ ['*'] := by
  intro u
  induction u with
  | nil => intro _; rfl
  | cons c cs ih =>
    intro h
    rw [List.cons_append,
      subBold_cons_nomatch (matchBold_none_head _ (h c (by simp))),
      ih (fun x hx => h x (by simp [hx]))]

theorem takeWhile_append_block {p : Char → Bool} :
    ∀ (u : List Char) (v : Char) (w : List Char), (∀ x ∈ u, p x = true) → p v = false →
      (u ++ v :: w).takeWhile p = u := by
  intro u
  induction u with
  | nil =>
    intro v w _ hv
    simp [List.takeWhile_cons, hv]
  | cons a u ih =>
    intro v w hu hv
    rw [List.cons_append, List.takeWhile_cons, if_pos (hu a (by simp)),
      ih v w (fun x hx => hu x (by simp [hx])) hv]

theorem boldClose_of_hit {body : List Char} {j : Nat} {r : Nat × Char × List Char}
    (h : boldCloseAt body j = some r) : boldClose body j = some r := by
  cases j with
  | zero => exact h
  | succ j2 =>
    unfold boldClose
    rw [h]
    rfl

theorem italClose_of_hit {body : List Char} {j : Nat} {r : Nat × Char × List Char}
    (h : italCloseAt body j = some r) : italClose body j = some r := by
  cases j with
  | zero => exact h
  | succ j2 =>
    unfold italClose
    rw [h]
    rfl

/-- The bold regex matches a well-formed `**group**` token (group at
least two characters, non-whitespace at both ends, no interior star)
and returns exactly the group. -/
theorem matchBold_wrap (c0 d : Char) (mid : List Char)
    (hc0 : isPySpace c0 = false) (hd : isPySpace d = false)
    (hmid : ∀ x ∈ mid, x ≠ '*') (hdstar : d ≠ '*') :
    matchBold ('*' :: '*' :: c0 :: (mid ++ [d, '*', '*'])) =
      some (c0 :: (mid ++ [d]), []) := by
  have hsplit : mid ++ [d, '*', '*'] = (mid ++ [d]) ++ ['*', '*'] := by simp
  have hrun : ((mid ++ [d, '*', '*']).takeWhile (fun x => decide (x ≠ '*'))).length =
      mid.length + 1 := by
    rw [show mid ++ [d, '*', '*'] = (mid ++ [d]) ++ '*' :: ['*'] by simp]
    rw [takeWhile_append_block (mid ++ [d]) '*' ['*']
      (by
        intro x hx
        rcases List.mem_append.mp hx with hm | he
        · simp [hmid x hm]
        · simp at he
          simp [he, hdstar])
      (by simp)]
    simp
  have hat1 : boldCloseAt (mid ++ [d, '*', '*']) (mid.length + 1) = none := by
    unfold boldCloseAt
    rw [show mid.length + 1 = (mid ++ [d]).length by simp, hsplit, List.drop_left]
  have hat0 : boldCloseAt (mid ++ [d, '*', '*']) mid.length = some (mid.length, d, []) := by
    unfold boldCloseAt
    rw [show (mid ++ [d, '*', '*']).drop mid.length = [d, '*', '*'] from
      List.drop_left mid [d, '*', '*']]
    show (if ('*' : Char) = '*' ∧ ('*' : Char) = '*' ∧ ¬ isPySpace d = true then
        some (mid.length, d, ([] : List Char)) else none) = some (mid.length, d, [])
    rw [if_pos ⟨rfl, rfl, by simp [hd]⟩]
  have hclose : boldClose (mid ++ [d, '*', '*']) (mid.length + 1) =
      some (mid.length, d, []) := by
    unfold boldClose
    rw [hat1]
    simp only [Option.orElse, Option.none_orElse]
    exact boldClose_of_hit hat0
  show (if ('*' : Char) = '*' ∧ ('*' : Char) = '*' ∧ ¬ isPySpace c0 = true then
      match boldClose (mid ++ [d, '*', '*'])
          ((mid ++ [d, '*', '*']).takeWhile (· ≠ '*')).length with
      | some (j, e, tail) => some (c0 :: ((mid ++ [d, '*', '*']).take j ++ [e]), tail)
      | none => none
    else none) = some (c0 :: (mid ++ [d]), [])
  rw [if_pos ⟨rfl, rfl, by simp [hc0]⟩]
  rw [show ((mid ++ [d, '*', '*']).takeWhile (· ≠ '*')).length = mid.length + 1 from hrun,
    hclose]
  show some (c0 :: ((mid ++ [d, '*', '*']).take mid.length ++ [d]), ([] : List Char)) =
    some (c0 :: (mid ++ [d]), [])
  rw [show (mid ++ [d, '*', '*']).take mid.length = mid from List.take_left mid [d, '*', '*']]

/-- The italic regex matches a well-formed `*group*` token. -/
theorem matchItal_wrap (c0 d : Char) (mid : List Char)
    (hc0 : isPySpace c0 = false) (hd : isPySpace d = false)
    (hmid : ∀ x ∈ mid, x ≠ '*') (hdstar : d ≠ '*') :
    matchItal ('*' :: c0 :: (mid ++ [d, '*'])) = some (c0 :: (mid ++ [d]), []) := by
  have hsplit : mid ++ [d, '*'] = (mid ++ [d]) ++ ['*'] := by simp
  have hrun : ((mid ++ [d, '*']).takeWhile (fun x => decide (x ≠ '*'))).length =
      mid.length + 1 := by
    rw [show mid ++ [d, '*'] = (mid ++ [d]) ++ '*' :: [] by simp]
    rw [takeWhile_append_block (mid ++ [d]) '*' []
      (by
        intro x hx
        rcases List.mem_append.mp hx with hm | he
        · simp [hmid x hm]
        · simp at he
          simp [he, hdstar])
      (by simp)]
    simp
  have hat1 : italCloseAt (mid ++ [d, '*']) (mid.length + 1) = none := by
    unfold italCloseAt
    rw [show mid.length + 1 = (mid ++ [d]).length by simp, hsplit, List.drop_left]
  have hat0 : italCloseAt (mid ++ [d, '*']) mid.length = some (mid.length, d, []) := by
    unfold italCloseAt
    rw [show (mid ++ [d, '*']).drop mid.length = [d, '*'] from List.drop_left mid [d, '*']]
    show (if ('*' : Char) = '*' ∧ ¬ isPySpace d = true then
        some (mid.length, d, ([] : List Char)) else none) = some (mid.length, d, [])
    rw [if_pos ⟨rfl, by simp [hd]⟩]
  have hclose : italClose (mid ++ [d, '*']) (mid.length + 1) = some (mid.length, d, []) := by
    unfold italClose
    rw [hat1]
    simp only [Option.orElse, Option.none_orElse]
    exact italClose_of_hit hat0
  show (if ('*' : Char) = '*' ∧ ¬ isPySpace c0 = true then
      match italClose (mid ++ [d, '*']) ((mid ++ [d, '*']).takeWhile (· ≠ '*')).length with
      | some (j, e, tail) => some (c0 :: ((mid ++ [d, '*']).take j ++ [e]), tail)
      | none => none
    else none) = some (c0 :: (mid ++ [d]), [])
  rw [if_pos ⟨rfl, by simp [hc0]⟩]
  rw [show ((mid ++ [d, '*']).takeWhile (· ≠ '*')).length = mid.length + 1 from hrun, hclose]
  show some (c0 :: ((mid ++ [d, '*']).take mid.length ++ [d]), ([] : List Char)) =
    some (c0 :: (mid ++ [d]), [])
  rw [show (mid ++ [d, '*']).take mid.length = mid from List.take_left mid [d, '*']]

/-- All passes after emphasis removal leave text without backticks,
`'>'`, ampersands and line breaks unchanged. -/
theorem postEmphasis_id {g : List Char} (hbt : '`' ∉ g) (hgt : '>' ∉ g)
    (hamp : '&' ∉ g) (hcr : '\r' ∉ g) (hlf : '\n' ∉ g) :
    normalizeNewlines
      (replaceAll '&' ['g', 't', ';'] ['>']
        (replaceAll '&' ['l', 't', ';'] ['<']
          (replaceAll '&' ['a', 'm', 'p', ';'] ['&']
            (replaceAll '>' [] []
              (replaceAll '`' [] [] g))))) = g := by
  rw [replaceAll_not_mem [] [] g hbt, replaceAll_not_mem [] [] g hgt,
    replaceAll_not_mem ['a', 'm', 'p', ';'] ['&'] g hamp,
    replaceAll_not_mem ['l', 't', ';'] ['<'] g hamp,
    replaceAll_not_mem ['g', 't', ';'] ['>'] g hamp]
  unfold normalizeNewlines
  rw [replaceAll_not_mem ['\n'] ['\n'] g hcr, replaceAll_not_mem [] ['\n'] g hcr,
    replaceAll_not_mem [] ['\r', '\n'] g hlf]

/-! ## Claims C8 and C9: sanitizer properties -/

/-- C8, counterexample.  The token `**a**` has wrapped content `a` with
no leading or trailing whitespace, so the claim says it is unwrapped to
`a`; but the regex group `\S[^*]*\S` needs at least two characters, so
the code instead turns `**a**` into `*a*` (the italic pass matches with
`\S` taken by a star). -/
theorem single_char_token_not_unwrapped :
    format_chunk (("**a**").toList) = ("*a*").toList ∧
    format_chunk (("**a**").toList) ≠ ("a").toList := by
  constructor
  · decide
  · decide

/-- C8, amended.  A token `**g**` or `*g*` whose content `g` has at
least two characters, starts and ends with non-whitespace, and has no
interior asterisk (and no characters the later passes rewrite) is
unwrapped to `g`; and the spec's example sanitizes as stated. -/
theorem emphasis_unwrap_rule :
    (∀ (c0 d : Char) (mid : List Char),
      isPySpace c0 = false → isPySpace d = false →
      (∀ x ∈ c0 :: (mid ++ [d]),
        x ≠ '*' ∧ x ≠ '`' ∧ x ≠ '>' ∧ x ≠ '&' ∧ x ≠ '\r' ∧ x ≠ '\n') →
      format_chunk ('*' :: '*' :: c0 :: (mid ++ [d, '*', '*'])) = c0 :: (mid ++ [d]) ∧
      format_chunk ('*' :: c0 :: (mid ++ [d, '*'])) = c0 :: (mid ++ [d])) ∧
    format_chunk (("**bold** and *italic* and `code`").toList) =
      ("bold and italic and code").toList := by
  constructor
  · intro c0 d mid hc0 hd hplain
    have hstar : ∀ x ∈ c0 :: (mid ++ [d]), x ≠ '*' := fun x hx => (hplain x hx).1
    have hmid : ∀ x ∈ mid, x ≠ '*' := fun x hx => hstar x (by simp [hx])
    have hdstar : d ≠ '*' := hstar d (by simp)
    have hbt : '`' ∉ c0 :: (mid ++ [d]) := fun hm => (hplain '`' hm).2.1 rfl
    have hgt : '>' ∉ c0 :: (mid ++ [d]) := fun hm => (hplain '>' hm).2.2.1 rfl
    have hamp : '&' ∉ c0 :: (mid ++ [d]) := fun hm => (hplain '&' hm).2.2.2.1 rfl
    have hcr : '\r' ∉ c0 :: (mid ++ [d]) := fun hm => (hplain '\r' hm).2.2.2.2.1 rfl
    have hlf : '\n' ∉ c0 :: (mid ++ [d]) := fun hm => (hplain '\n' hm).2.2.2.2.2 rfl
    constructor
    · have hsub : subBold ('*' :: '*' :: c0 :: (mid ++ [d, '*', '*'])) =
          c0 :: (mid ++ [d]) := by
        rw [subBold_cons_match (matchBold_wrap c0 d mid hc0 hd hmid hdstar)]
        simp [subBold_nil]
      unfold format_chunk
      rw [if_neg (by simp)]
      rw [hsub, subItal_id _ hstar, postEmphasis_id hbt hgt hamp hcr hlf]
    · have hshape : c0 :: (mid ++ [d, '*']) = (c0 :: (mid ++ [d])) ++ ['*'] := by simp
      have hsub : subBold ('*' :: c0 :: (mid ++ [d, '*'])) =
          '*' :: c0 :: (mid ++ [d, '*']) := by
        rw [subBold_cons_nomatch (matchBold_none_two _ (hstar c0 (by simp)))]
        rw [show (c0 :: (mid ++ [d, '*'])) = (c0 :: (mid ++ [d])) ++ ['*'] from hshape,
          subBold_star_end _ hstar]
      have hit : subItal ('*' :: c0 :: (mid ++ [d, '*'])) = c0 :: (mid ++ [d]) := by
        rw [subItal_cons_match (matchItal_wrap c0 d mid hc0 hd hmid hdstar)]
        simp [subItal_nil]
      unfold format_chunk
      rw [if_neg (by simp)]
      rw [hsub, hit, postEmphasis_id hbt hgt hamp hcr hlf]
  · decide

/-- Witness for `emphasis_unwrap_rule`: unwraps `**bold**` and `*it*`. -/
theorem emphasis_unwrap_rule_witness :
    format_chunk (("**bold**").toList) = ("bold").toList ∧
    format_chunk (("*it*").toList) = ("it").toList :=
  ⟨(emphasis_unwrap_rule.1 'b' 'd' ['o', 'l'] (by decide) (by decide) (by decide)).1,
    (emphasis_unwrap_rule.1 'i' 't' [] (by decide) (by decide) (by decide)).2⟩

/-- C9, counterexample.  The sanitizer is not idempotent: sanitizing
`&amp;amp;` once yields `&amp;`, and sanitizing that yields `&`. -/
theorem sanitizer_not_idempotent :
    format_chunk (format_chunk (("&amp;amp;").toList)) ≠
      format_chunk (("&amp;amp;").toList) := by
  decide

/-- Every line break in the text is a full `"\r\n"`: no bare `'\r'` and
no bare `'\n'` occurs. -/
def crlfOK : List Char → Bool
  | [] => true
  | c :: cs =>
    if c = '\r' then
      match cs with
      | [] => false
      | d :: cs2 => if d = '\n' then crlfOK cs2 else false
    else if c = '\n' then false
    else crlfOK cs

theorem crlfOK_cons_crlf (l : List Char) : crlfOK ('\r' :: '\n' :: l) = crlfOK l := by
  show (if ('\r' : Char) = '\r' then (if ('\n' : Char) = '\n' then crlfOK l else false)
    else if ('\r' : Char) = '\n' then false else crlfOK ('\n' :: l)) = crlfOK l
  rw [if_pos rfl, if_pos rfl]

theorem crlfOK_cons_other {c : Char} (l : List Char) (hcr : c ≠ '\r') (hlf : c ≠ '\n') :
    crlfOK (c :: l) = crlfOK l := by
  cases l with
  | nil =>
    show (if c = '\r' then false else if c = '\n' then false else crlfOK []) = crlfOK []
    rw [if_neg hcr, if_neg hlf]
  | cons d cs =>
    show (if c = '\r' then (if d = '\n' then crlfOK cs else false)
      else if c = '\n' then false else crlfOK (d :: cs)) = crlfOK (d :: cs)
    rw [if_neg hcr, if_neg hlf]

/-- After `.replace('\r', '\n')` no carriage return remains. -/
theorem no_cr_replace_cr (t : List Char) : '\r' ∉ replaceAll '\r' [] ['\n'] t := by
  induction t with
  | nil =>
    rw [replaceAll_nil]
    simp
  | cons c cs ih =>
    rw [replaceAll_cons]
    by_cases hl : leadsWith ['\r'] (c :: cs) = true
    · rw [if_pos hl]
      simp only [List.length_nil, List.drop_zero]
      intro hm
      rcases List.mem_append.mp hm with h1 | h2
      · simp at h1
      · exact ih h2
    · rw [if_neg hl]
      intro hm
      rcases List.mem_cons.mp hm with he | h2
      · exact hl (by rw [← he]; simp [leadsWith])
      · exact ih h2

/-- Expanding `'\n'` to `"\r\n"` in carriage-return-free text yields
text whose every break is a full CRLF. -/
theorem crlfOK_expand (w : List Char) (hcr : '\r' ∉ w) :
    crlfOK (replaceAll '\n' [] ['\r', '\n'] w) = true := by
  induction w with
  | nil =>
    rw [replaceAll_nil]
    rfl
  | cons c cs ih =>
    have hcrc : c ≠ '\r' := fun he => hcr (by simp [he])
    have ihcs := ih (fun hm => hcr (by simp [hm]))
    rw [replaceAll_cons]
    by_cases hl : leadsWith ['\n'] (c :: cs) = true
    · rw [if_pos hl]
      simp only [List.length_nil, List.drop_zero]
      show crlfOK ('\r' :: '\n' :: replaceAll '\n' [] ['\r', '\n'] cs) = true
      rw [crlfOK_cons_crlf]
      exact ihcs
    · rw [if_neg hl]
      have hclf : c ≠ '\n' := fun he => hl (by rw [he]; simp [leadsWith])
      rw [crlfOK_cons_other _ hcrc hclf]
      exact ihcs

/-- `.replace('\r\n', '\n')` undoes the CRLF expansion of
carriage-return-free text. -/
theorem contract_expand (w : List Char) (hcr : '\r' ∉ w) :
    replaceAll '\r' ['\n'] ['\n'] (replaceAll '\n' [] ['\r', '\n'] w) = w := by
  induction w with
  | nil =>
    rw [replaceAll_nil, replaceAll_nil]
  | cons c cs ih =>
    have hcrc : c ≠ '\r' := fun he => hcr (by simp [he])
    have ihcs := ih (fun hm => hcr (by simp [hm]))
    rw [replaceAll_cons]
    by_cases hl : leadsWith ['\n'] (c :: cs) = true
    · rw [if_pos hl]
      simp only [List.length_nil, List.drop_zero]
      have hc : c = '\n' := by
        simp only [leadsWith, Bool.and_eq_true, decide_eq_true_eq] at hl
        exact hl.1.symm
      show replaceAll '\r' ['\n'] ['\n'] ('\r' :: '\n' :: replaceAll '\n' [] ['\r', '\n'] cs) =
        c :: cs
      rw [replaceAll_cons, if_pos (by simp [leadsWith])]
      simp only [List.length_cons, List.length_nil, List.drop_succ_cons, List.drop_zero]
      rw [ihcs, hc]
      rfl
    · rw [if_neg hl]
      have hclf : c ≠ '\n' := fun he => hl (by rw [he]; simp [leadsWith])
      show replaceAll '\r' ['\n'] ['\n'] (c :: replaceAll '\n' [] ['\r', '\n'] cs) = c :: cs
      rw [replaceAll_cons, if_neg (by rw [leadsWith_cons_ne hcrc]; simp), ihcs]

theorem normalizeNewlines_idem (u : List Char) :
    normalizeNewlines (normalizeNewlines u) = normalizeNewlines u := by
  unfold normalizeNewlines
  have hcrw : '\r' ∉ replaceAll '\r' [] ['\n'] (replaceAll '\r' ['\n'] ['\n'] u) :=
    no_cr_replace_cr _
  rw [contract_expand _ hcrw, replaceAll_not_mem [] ['\n'] _ hcrw]

theorem not_mem_replaceAll {x p : Char} {ps rep s : List Char}
    (hs : x ∉ s) (hr : x ∉ rep) : x ∉ replaceAll p ps rep s :=
  fun hm => (mem_replaceAll hm).elim hs hr

/-- A non-empty normalized text free of the rewritten characters is a
fixed point of the sanitizer. -/
theorem format_chunk_fixed {t u : List Char} (ht : t ≠ []) (hstar : '*' ∉ t)
    (hbt : '`' ∉ t) (hgt : '>' ∉ t) (hamp : '&' ∉ t)
    (hnorm : t = normalizeNewlines u) : format_chunk t = t := by
  unfold format_chunk
  rw [if_neg ht, subBold_id t (fun x hx he => hstar (he ▸ hx)),
    subItal_id t (fun x hx he => hstar (he ▸ hx)),
    replaceAll_not_mem [] [] t hbt,
    replaceAll_not_mem [] [] t hgt,
    replaceAll_not_mem ['a', 'm', 'p', ';'] ['&'] t hamp,
    replaceAll_not_mem ['l', 't', ';'] ['<'] t hamp,
    replaceAll_not_mem ['g', 't', ';'] ['>'] t hamp]
  rw [hnorm]
  exact normalizeNewlines_idem u

theorem format_chunk_crlfOK (s : List Char) : crlfOK (format_chunk s) = true := by
  unfold format_chunk
  by_cases hs : s = []
  · rw [if_pos hs]
    rfl
  · rw [if_neg hs]
    unfold normalizeNewlines
    exact crlfOK_expand _ (no_cr_replace_cr _)

theorem format_chunk_restricted_idem (s : List Char)
    (hstar : '*' ∉ s) (hamp : '&' ∉ s) :
    format_chunk (format_chunk s) = format_chunk s := by
  by_cases hs : s = []
  · subst hs
    simp [format_chunk]
  · have hfc : format_chunk s =
        normalizeNewlines (replaceAll '>' [] [] (replaceAll '`' [] [] s)) := by
      unfold format_chunk
      rw [if_neg hs, subBold_id s (fun x hx he => hstar (he ▸ hx)),
        subItal_id s (fun x hx he => hstar (he ▸ hx))]
      have hampv : '&' ∉ replaceAll '>' [] [] (replaceAll '`' [] [] s) :=
        not_mem_replaceAll (not_mem_replaceAll hamp (by simp)) (by simp)
      rw [replaceAll_not_mem ['a', 'm', 'p', ';'] ['&'] _ hampv,
        replaceAll_not_mem ['l', 't', ';'] ['<'] _ hampv,
        replaceAll_not_mem ['g', 't', ';'] ['>'] _ hampv]
    have hbt : '`' ∉ format_chunk s := by
      rw [hfc]
      unfold normalizeNewlines
      exact not_mem_replaceAll (not_mem_replaceAll (not_mem_replaceAll
        (not_mem_replaceAll (replaceAll_removes s) (by simp)) (by simp)) (by simp)) (by simp)
    have hgt : '>' ∉ format_chunk s := by
      rw [hfc]
      unfold normalizeNewlines
      exact not_mem_replaceAll (not_mem_replaceAll (not_mem_replaceAll
        (replaceAll_removes _) (by simp)) (by simp)) (by simp)
    have hstart : '*' ∉ format_chunk s := by
      rw [hfc]
      unfold normalizeNewlines
      exact not_mem_replaceAll (not_mem_replaceAll (not_mem_replaceAll
        (not_mem_replaceAll (not_mem_replaceAll hstar (by simp)) (by simp)) (by simp))
        (by simp)) (by simp)
    have hampt : '&' ∉ format_chunk s := by
      rw [hfc]
      unfold normalizeNewlines
      exact not_mem_replaceAll (not_mem_replaceAll (not_mem_replaceAll
        (not_mem_replaceAll (not_mem_replaceAll hamp (by simp)) (by simp)) (by simp))
        (by simp)) (by simp)
    by_cases ht : format_chunk s = []
    · rw [ht]
      simp [format_chunk, ht]
    · exact format_chunk_fixed ht hstart hbt hgt hampt hfc

/-- C9, amended.  The sanitizer's output has no bare `'\n'` and no bare
`'\r'` (every break is a full CRLF); and the sanitizer is idempotent on
inputs free of asterisks and ampersands.  (Full idempotence fails, see
the counterexample: leftover emphasis markers and doubly-encoded
entities are rewritten again on a second pass.) -/
theorem sanitizer_crlf_output_and_partial_idem :
    (∀ s : List Char, crlfOK (format_chunk s) = true) ∧
    (∀ s : List Char, '*' ∉ s → '&' ∉ s →
      format_chunk (format_chunk s) = format_chunk s) :=
  ⟨format_chunk_crlfOK, format_chunk_restricted_idem⟩

/-- Witness for `sanitizer_crlf_output_and_partial_idem` on the
star-free, ampersand-free fragment `"hi\nthere"`. -/
theorem sanitizer_crlf_output_and_partial_idem_witness :
    ('*' ∉ (("hi\nthere").toList) ∧ '&' ∉ (("hi\nthere").toList)) ∧
    format_chunk (format_chunk (("hi\nthere").toList)) =
      format_chunk (("hi\nthere").toList) :=
  ⟨⟨by decide, by decide⟩,
    sanitizer_crlf_output_and_partial_idem.2 (("hi\nthere").toList) (by decide) (by decide)⟩

/-! ## The per-exchange streaming coordinator (`handle_client`, lines 275-417)

One prompt→response cycle, per platform.  The backend stream is a
parameter: for Gemini and OpenAI a list of chunk texts (`chunk.text` /
`delta.content`, possibly empty), for Anthropic a list of tagged events;
`err` is the exception the stream raises after the listed items, when
any.  The observable effects are traced as an action list: bytes sent to
the client socket, spinner start, spinner stop (`stop_spinner.set()`
plus `join()`), and server-side error logging. -/

inductive Turn
  | user (text : List Char)
  | assistant (text : List Char)
  | model (text : List Char)
deriving DecidableEq

inductive Action
  | send (bytes : List Char)
  | startSpinner
  | stopSpinner
  | logError (msg : List Char)
deriving DecidableEq

inductive AEvent
  | delta (text : List Char)
  | stop
deriving DecidableEq

def thinkingMsg : List Char := ("\r\nThinking... ").toList

def crlfMsg : List Char := ("\r\n").toList

def sepMsg : List Char := ("\r\n-----\r\n").toList

def nextPromptMsg : List Char :=
  ("Type your next prompt and press Enter twice:\r\n\r\n> ").toList

def emptyPromptMsg : List Char :=
  ("\r\nType your prompt and press Enter twice:\r\n\r\n> ").toList

def geminiName : List Char := ("GEMINI").toList

def openaiName : List Char := ("OPENAI").toList

def anthropicName : List Char := ("ANTHROPIC").toList

/-- `f"\r\nAI API Streaming Error ({platform}): {e}\r\n"` (line 399). -/
def apiErrMsg (platform e : List Char) : List Char :=
  ("\r\nAI API Streaming Error (").toList ++ platform ++ ("): ").toList ++ e ++
    ("\r\n").toList

/-- One iteration of the chunk loop (lines 294-306 / 322-335): on the
first chunk stop the spinner and send `"\r\n"`; then, when the chunk
text is non-empty, accumulate it and send the sanitized text.  State:
`(first_chunk_received, full_response_text, actions so far)`. -/
def chunkStep (st : Bool × List Char × List Action) (item : List Char) :
    Bool × List Char × List Action :=
  let acts := if st.1 then st.2.2 else st.2.2 ++ [Action.stopSpinner, Action.send crlfMsg]
  if item = [] then (true, st.2.1, acts)
  else (true, st.2.1 ++ item, acts ++ [Action.send (format_chunk item)])

/-- The Anthropic event loop (lines 363-380): only `content_block_delta`
events carry text; `message_stop` is ignored. -/
def anthropicStep (st : Bool × List Char × List Action) (ev : AEvent) :
    Bool × List Char × List Action :=
  match ev with
  | AEvent.delta t => chunkStep st t
  | AEvent.stop => st

/-- One OpenAI exchange (lines 277-284, 313-339, 394-414): the user turn
is appended before the stream starts; on success the assistant turn is
appended when text was produced; an exception skips the assistant
append, and is reported to the client only when no chunk had arrived. -/
def openaiExchange (hist : List Turn) (prompt : List Char)
    (items : List (List Char)) (err : Option (List Char)) : List Action × List Turn :=
  let hist1 := hist ++ [Turn.user prompt]
  let core := items.foldl chunkStep (false, [], [])
  let errActs :=
    match err with
    | none => []
    | some e =>
      if core.1 then [Action.logError e]
      else [Action.stopSpinner, Action.send (apiErrMsg openaiName e)]
  let hist2 :=
    match err with
    | none => if core.2.1 = [] then hist1 else hist1 ++ [Turn.assistant core.2.1]
    | some _ => hist1
  ([Action.send thinkingMsg, Action.startSpinner] ++ core.2.2 ++ errActs ++
    (if core.1 then [] else [Action.stopSpinner]) ++
    [Action.send sepMsg, Action.send nextPromptMsg], hist2)

/-- One Gemini exchange (lines 291-310, 394-414): the local
`chat_history` receives only the model turn (the user turn lives in the
global chat handle), and only when text was produced and no exception
was raised. -/
def geminiExchange (hist : List Turn) (prompt : List Char)
    (items : List (List Char)) (err : Option (List Char)) : List Action × List Turn :=
  let core := items.foldl chunkStep (false, [], [])
  let errActs :=
    match err with
    | none => []
    | some e =>
      if core.1 then [Action.logError e]
      else [Action.stopSpinner, Action.send (apiErrMsg geminiName e)]
  let hist2 :=
    match err with
    | none => if core.2.1 = [] then hist else hist ++ [Turn.model core.2.1]
    | some _ => hist
  ([Action.send thinkingMsg, Action.startSpinner] ++ core.2.2 ++ errActs ++
    (if core.1 then [] else [Action.stopSpinner]) ++
    [Action.send sepMsg, Action.send nextPromptMsg], hist2)

/-- One Anthropic exchange (lines 342-385, 394-414): both the user and
the assistant turn are appended only after the loop, guarded by
`if full_response_text`, so an empty stream or an exception records
nothing. -/
def anthropicExchange (hist : List Turn) (prompt : List Char)
    (events : List AEvent) (err : Option (List Char)) : List Action × List Turn :=
  let core := events.foldl anthropicStep (false, [], [])
  let errActs :=
    match err with
    | none => []
    | some e =>
      if core.1 then [Action.logError e]
      else [Action.stopSpinner, Action.send (apiErrMsg anthropicName e)]
  let hist2 :=
    match err with
    | none =>
      if core.2.1 = [] then hist
      else hist ++ [Turn.user prompt, Turn.assistant core.2.1]
    | some _ => hist
  ([Action.send thinkingMsg, Action.startSpinner] ++ core.2.2 ++ errActs ++
    (if core.1 then [] else [Action.stopSpinner]) ++
    [Action.send sepMsg, Action.send nextPromptMsg], hist2)

/-- The extracted-prompt handling of the loop (lines 271-417, OpenAI
platform): a non-empty prompt goes straight into the exchange — there is
no inspection of a leading `'/'` anywhere — and an empty prompt just
re-issues the banner. -/
def openaiPromptStep (hist : List Turn) (prompt : List Char)
    (items : List (List Char)) (err : Option (List Char)) : List Action × List Turn :=
  if prompt = [] then ([Action.send emptyPromptMsg], hist)
  else openaiExchange hist prompt items err

def isSend : Action → Bool
  | Action.send _ => true
  | _ => false

theorem chunkStep_first (st : Bool × List Char × List Action) (item : List Char) :
    (chunkStep st item).1 = true := by
  unfold chunkStep
  by_cases h : item = []
  · rw [if_pos h]
  · rw [if_neg h]

theorem chunkFold_first :
    ∀ (items : List (List Char)) (st : Bool × List Char × List Action),
      items ≠ [] ∨ st.1 = true → (items.foldl chunkStep st).1 = true := by
  intro items
  induction items with
  | nil =>
    intro st h
    rcases h with h | h
    · exact absurd rfl h
    · exact h
  | cons c cs ih =>
    intro st _
    simp only [List.foldl_cons]
    by_cases hcs : cs = []
    · subst hcs
      simp only [List.foldl_nil]
      exact chunkStep_first st c
    · exact ih (chunkStep st c) (Or.inl hcs)

theorem anthropicFold_first :
    ∀ (events : List AEvent) (st : Bool × List Char × List Action),
      (∃ t, AEvent.delta t ∈ events) ∨ st.1 = true →
      (events.foldl anthropicStep st).1 = true := by
  intro events
  induction events with
  | nil =>
    intro st h
    rcases h with ⟨t, ht⟩ | h
    · simp at ht
    · exact h
  | cons ev evs ih =>
    intro st h
    simp only [List.foldl_cons]
    cases ev with
    | delta t =>
      exact ih (anthropicStep st (AEvent.delta t))
        (Or.inr (chunkStep_first st t))
    | stop =>
      refine ih st ?_
      rcases h with ⟨t, ht⟩ | h
      · rcases List.mem_cons.mp ht with he | hm
        · exact absurd he (by simp)
        · exact Or.inl ⟨t, hm⟩
      · exact Or.inr h

theorem anthropicFold_no_delta :
    ∀ (events : List AEvent), (∀ t, AEvent.delta t ∉ events) →
      events.foldl anthropicStep (false, [], []) = (false, [], []) := by
  intro events
  induction events with
  | nil =>
    intro _
    rfl
  | cons ev evs ih =>
    intro h
    cases ev with
    | delta t => exact absurd (by simp) (h t)
    | stop =>
      simp only [List.foldl_cons, anthropicStep]
      exact ih (fun t hm => h t (by simp [hm]))

/-! ## Claim C7: pre-stream backend errors -/

/-- C7, confirmed.  When the backend raises before producing any
fragment, the exchange (on each of the three platforms) stops and joins
the spinner first, then writes the formatted error notice, and the
session proceeds to the separator and the next-prompt banner; the notice
consists of the platform name and the error detail inside the fixed
error template. -/
theorem prestream_error_reported :
    ∀ (hist : List Turn) (prompt e : List Char),
      (openaiExchange hist prompt [] (some e) =
        ([Action.send thinkingMsg, Action.startSpinner, Action.stopSpinner,
          Action.send (apiErrMsg openaiName e), Action.stopSpinner,
          Action.send sepMsg, Action.send nextPromptMsg],
          hist ++ [Turn.user prompt])) ∧
      (geminiExchange hist prompt [] (some e) =
        ([Action.send thinkingMsg, Action.startSpinner, Action.stopSpinner,
          Action.send (apiErrMsg geminiName e), Action.stopSpinner,
          Action.send sepMsg, Action.send nextPromptMsg], hist)) ∧
      (∀ events : List AEvent, (∀ t, AEvent.delta t ∉ events) →
        anthropicExchange hist prompt events (some e) =
          ([Action.send thinkingMsg, Action.startSpinner, Action.stopSpinner,
            Action.send (apiErrMsg anthropicName e), Action.stopSpinner,
            Action.send sepMsg, Action.send nextPromptMsg], hist)) ∧
      (∀ p : List Char, apiErrMsg p e =
        ("\r\nAI API Streaming Error (").toList ++ p ++ ("): ").toList ++ e ++
          ("\r\n").toList) := by
  intro hist prompt e
  refine ⟨rfl, rfl, ?_, fun p => rfl⟩
  intro events hnd
  unfold anthropicExchange
  rw [anthropicFold_no_delta events hnd]
  rfl

/-- Witness for `prestream_error_reported` at a concrete exchange
(including an Anthropic event list with no content delta). -/
theorem prestream_error_reported_witness :
    anthropicExchange [] (("hi").toList) [AEvent.stop] (some (("boom").toList)) =
      ([Action.send thinkingMsg, Action.startSpinner, Action.stopSpinner,
        Action.send (apiErrMsg anthropicName (("boom").toList)), Action.stopSpinner,
        Action.send sepMsg, Action.send nextPromptMsg], []) :=
  (prestream_error_reported [] (("hi").toList) (("boom").toList)).2.2.1 [AEvent.stop]
    (by
      intro t
      simp)

/-! ## Claim C6: mid-stream backend errors -/

/-- C6, counterexample.  OpenAI exchange, one fragment `"yo"` streamed,
then the backend raises: the claim says the assistant turn with the
partial text is appended, but the append sits after the loop inside the
`try` block and is skipped — only the pre-stream user turn remains. -/
theorem midstream_error_claim_false :
    (openaiExchange [] (("hi").toList) [("yo").toList]
        (some (("boom").toList))).2 = [Turn.user (("hi").toList)] ∧
    Turn.assistant (("yo").toList) ∉
      (openaiExchange [] (("hi").toList) [("yo").toList]
        (some (("boom").toList))).2 := by
  constructor
  · decide
  · decide

/-- C6, amended.  On a backend error after at least one stream item, no
error text is written to the client (the error is only logged
server-side) and the client-visible byte stream is exactly that of a
normally ending stream; but the assistant turn is NOT appended: OpenAI
keeps only the pre-stream user turn, Gemini and Anthropic leave the
history unchanged. -/
theorem midstream_error_silent :
    ∀ (hist : List Turn) (prompt e : List Char),
      (∀ items : List (List Char), items ≠ [] →
        ((openaiExchange hist prompt items (some e)).1.filter isSend =
            (openaiExchange hist prompt items none).1.filter isSend ∧
          (openaiExchange hist prompt items (some e)).2 =
            hist ++ [Turn.user prompt])) ∧
      (∀ items : List (List Char), items ≠ [] →
        ((geminiExchange hist prompt items (some e)).1.filter isSend =
            (geminiExchange hist prompt items none).1.filter isSend ∧
          (geminiExchange hist prompt items (some e)).2 = hist)) ∧
      (∀ (events : List AEvent) (t : List Char), AEvent.delta t ∈ events →
        ((anthropicExchange hist prompt events (some e)).1.filter isSend =
            (anthropicExchange hist prompt events none).1.filter isSend ∧
          (anthropicExchange hist prompt events (some e)).2 = hist)) := by
  intro hist prompt e
  refine ⟨?_, ?_, ?_⟩
  · intro items hne
    have hfirst : (items.foldl chunkStep (false, [], [])).1 = true :=
      chunkFold_first items _ (Or.inl hne)
    unfold openaiExchange
    simp only [hfirst]
    simp [isSend, List.filter_append]
  · intro items hne
    have hfirst : (items.foldl chunkStep (false, [], [])).1 = true :=
      chunkFold_first items _ (Or.inl hne)
    unfold geminiExchange
    simp only [hfirst]
    simp [isSend, List.filter_append]
  · intro events t hmem
    have hfirst : (events.foldl anthropicStep (false, [], [])).1 = true :=
      anthropicFold_first events _ (Or.inl ⟨t, hmem⟩)
    unfold anthropicExchange
    simp only [hfirst]
    simp [isSend, List.filter_append]

/-- Witness for `midstream_error_silent` at one concrete exchange per
platform. -/
theorem midstream_error_silent_witness :
    ((openaiExchange [] (("p").toList) [("a").toList] (some (("b").toList))).1.filter isSend =
        (openaiExchange [] (("p").toList) [("a").toList] none).1.filter isSend ∧
      (openaiExchange [] (("p").toList) [("a").toList] (some (("b").toList))).2 =
        [] ++ [Turn.user (("p").toList)]) ∧
    ((anthropicExchange [] (("p").toList) [AEvent.delta (("a").toList)]
          (some (("b").toList))).1.filter isSend =
        (anthropicExchange [] (("p").toList) [AEvent.delta (("a").toList)]
          none).1.filter isSend ∧
      (anthropicExchange [] (("p").toList) [AEvent.delta (("a").toList)]
          (some (("b").toList))).2 = []) :=
  ⟨(midstream_error_silent [] (("p").toList) (("b").toList)).1 [("a").toList] (by decide),
    (midstream_error_silent [] (("p").toList) (("b").toList)).2.2
      [AEvent.delta (("a").toList)] (("a").toList) (by decide)⟩

/-! ## Claim C10: empty-stream history handling -/

/-- C10, confirmed.  On Anthropic, when the stream produces no text at
all the user turn is never recorded (both appends are guarded by
`if full_response_text:`), regardless of whether the stream erred; on
OpenAI the user turn is appended before the stream starts, so it is in
the history whatever the outcome. -/
theorem empty_stream_history_asymmetry :
    (∀ (hist : List Turn) (prompt : List Char) (events : List AEvent)
        (err : Option (List Char)),
      (events.foldl anthropicStep (false, [], [])).2.1 = [] →
      (anthropicExchange hist prompt events err).2 = hist) ∧
    (∀ (hist : List Turn) (prompt : List Char) (items : List (List Char))
        (err : Option (List Char)),
      ∃ rest, (openaiExchange hist prompt items err).2 =
        hist ++ Turn.user prompt :: rest) := by
  constructor
  · intro hist prompt events err hempty
    unfold anthropicExchange
    cases err with
    | none => simp [hempty]
    | some e => rfl
  · intro hist prompt items err
    unfold openaiExchange
    cases err with
    | none =>
      by_cases hfull : (items.foldl chunkStep (false, [], [])).2.1 = []
      · exact ⟨[], by simp [hfull]⟩
      · refine ⟨[Turn.assistant (items.foldl chunkStep (false, [], [])).2.1], ?_⟩
        simp only [if_neg hfull]
        simp
    | some e => exact ⟨[], rfl⟩

/-- Witness for `empty_stream_history_asymmetry`: an Anthropic stream of
one empty content delta and a `message_stop` leaves the history empty. -/
theorem empty_stream_history_asymmetry_witness :
    (anthropicExchange [Turn.user (("old").toList)] (("hi").toList)
      [AEvent.delta [], AEvent.stop] none).2 = [Turn.user (("old").toList)] :=
  empty_stream_history_asymmetry.1 [Turn.user (("old").toList)] (("hi").toList)
    [AEvent.delta [], AEvent.stop] none (by decide)

/-! ## Claim C1: conversation-state growth -/

/-- Run `n` successful OpenAI exchanges, each streaming the single
fragment `"a"` for the prompt `"p"` (each appends two turns). -/
def openaiMany : Nat → List Turn → List Turn
  | 0, h => h
  | n + 1, h => openaiMany n (openaiExchange h (("p").toList) [("a").toList] none).2

/-- C1, counterexample.  30 exchanges append 60 turns and the history
holds all 60 of them: nothing in `handle_client` ever trims
`chat_history`, so the claimed bound of 50 does not exist. -/
theorem history_not_bounded :
    (openaiMany 30 []).length = 60 ∧ ¬ (openaiMany 30 []).length = 50 := by
  constructor
  · decide
  · decide

/-- C1, amended.  The history is append-only and unbounded: every
exchange, on every platform, extends the previous history (the old
history is a prefix of the new one) and no turn is ever dropped, so
appending 60 turns leaves all 60 in their original relative order. -/
theorem history_append_only :
    ∀ (hist : List Turn) (prompt : List Char) (items : List (List Char))
      (events : List AEvent) (err : Option (List Char)),
      (∃ new, (openaiExchange hist prompt items err).2 = hist ++ new) ∧
      (∃ new, (geminiExchange hist prompt items err).2 = hist ++ new) ∧
      (∃ new, (anthropicExchange hist prompt events err).2 = hist ++ new) := by
  intro hist prompt items events err
  refine ⟨?_, ?_, ?_⟩
  · unfold openaiExchange
    cases err with
    | none =>
      by_cases hfull : (items.foldl chunkStep (false, [], [])).2.1 = []
      · exact ⟨[Turn.user prompt], by simp [hfull]⟩
      · refine ⟨[Turn.user prompt,
          Turn.assistant (items.foldl chunkStep (false, [], [])).2.1], ?_⟩
        simp only [if_neg hfull]
        simp
    | some e => exact ⟨[Turn.user prompt], rfl⟩
  · unfold geminiExchange
    cases err with
    | none =>
      by_cases hfull : (items.foldl chunkStep (false, [], [])).2.1 = []
      · exact ⟨[], by simp [hfull]⟩
      · exact ⟨[Turn.model (items.foldl chunkStep (false, [], [])).2.1],
          by simp only [if_neg hfull]⟩
    | some e => exact ⟨[], by simp⟩
  · unfold anthropicExchange
    cases err with
    | none =>
      by_cases hfull : (events.foldl anthropicStep (false, [], [])).2.1 = []
      · exact ⟨[], by simp [hfull]⟩
      · exact ⟨[Turn.user prompt,
          Turn.assistant (events.foldl anthropicStep (false, [], [])).2.1],
          by simp only [if_neg hfull]⟩
    | some e => exact ⟨[], by simp⟩

/-! ## Claim C2: slash-prefixed prompts -/

/-- C2, counterexample.  The prompt `/foo` is treated like any other
prompt: the exchange contacts the backend (the trace opens with the
`Thinking...` bytes and the spinner) and the Conversation State gains
the user and assistant turns — there is no unknown-command notice and
the state is not left unchanged. -/
theorem slash_command_claim_false :
    (openaiPromptStep [] (("/foo").toList) [("hi").toList] none).2 =
      [Turn.user (("/foo").toList), Turn.assistant (("hi").toList)] ∧
    ¬ (openaiPromptStep [] (("/foo").toList) [("hi").toList] none).2 = [] ∧
    Action.startSpinner ∈ (openaiPromptStep [] (("/foo").toList) [("hi").toList] none).1 := by
  refine ⟨by decide, by decide, by decide⟩

/-- C2, amended.  `handle_client` has no command dispatcher: every
non-empty prompt — in particular one beginning with `'/'` — is handled
as an ordinary prompt, passed to the backend exchange unchanged, whose
trace opens with the `Thinking...` bytes; no unknown-command notice
exists anywhere in the code. -/
theorem slash_prompt_is_ordinary :
    ∀ (hist : List Turn) (prompt : List Char) (items : List (List Char))
      (err : Option (List Char)),
      prompt ≠ [] →
      openaiPromptStep hist prompt items err = openaiExchange hist prompt items err ∧
      (openaiPromptStep hist prompt items err).1.head? =
        some (Action.send thinkingMsg) := by
  intro hist prompt items err hne
  have hstep : openaiPromptStep hist prompt items err =
      openaiExchange hist prompt items err := by
    unfold openaiPromptStep
    rw [if_neg hne]
  refine ⟨hstep, ?_⟩
  rw [hstep]
  unfold openaiExchange
  simp

/-- Witness for `slash_prompt_is_ordinary` at the prompt `/foo`. -/
theorem slash_prompt_is_ordinary_witness :
    openaiPromptStep [] (("/foo").toList) [("hi").toList] none =
      openaiExchange [] (("/foo").toList) [("hi").toList] none ∧
    (openaiPromptStep [] (("/foo").toList) [("hi").toList] none).1.head? =
      some (Action.send thinkingMsg) :=
  slash_prompt_is_ordinary [] (("/foo").toList) [("hi").toList] none (by decide)

/-! ## Claim C5: state sharing between concurrent sessions

`handle_client` keeps `chat_history` as a local (line 217), so OpenAI
and Anthropic sessions have per-session conversation state.  But on the
Gemini platform the conversation lives in the module-global `chat`
handle created once at startup (line 77) and used by every session's
exchange (line 294); the spinner event `stop_spinner` (line 157) is
likewise a module-global shared by all sessions.

The two-session model: a schedule is a list of `(toB, prompt)` entries,
each running one complete exchange for session A (`false`) or session B
(`true`); exchanges are serialized (each session's loop blocks on its
own `recv`, and an exchange runs between receives).  The backend reply
is an arbitrary function of the message list the code hands it. -/

def turnText : Turn → List Char
  | Turn.user t => t
  | Turn.assistant t => t
  | Turn.model t => t

/-- The Gemini SDK chat handle as described by the spec (§4.3, stateful
chat handle holding its own history): `send_message_stream` appends the
user turn, computes the reply from the whole handle history, appends the
reply, and streams it. -/
def geminiSend (backend : List Turn → List Char) (g : List Turn) (prompt : List Char) :
    List Turn × List Char :=
  let resp := backend (g ++ [Turn.user prompt])
  (g ++ [Turn.user prompt, Turn.model resp], resp)

/-- Two interleaved Gemini sessions sharing the one global chat handle
`g`; result: the sanitized reply bytes each session's client received. -/
def runTwoGemini (backend : List Turn → List Char) :
    List (Bool × List Char) → List Turn → List Char × List Char
  | [], _ => ([], [])
  | (toB, prompt) :: rest, g =>
    let r := geminiSend backend g prompt
    let out := runTwoGemini backend rest r.1
    if toB then (out.1, format_chunk r.2 ++ out.2)
    else (format_chunk r.2 ++ out.1, out.2)

/-- A backend that echoes the whole history it is given. -/
def echoBackend : List Turn → List Char :=
  fun hist => (hist.map turnText).flatten

/-- One OpenAI session run on its own: user turn appended before the
call, reply computed from the session's own messages, assistant turn
appended when text was produced (lines 313-339). -/
def openaiSoloRun (backend : List Turn → List Char) :
    List (List Char) → List Turn → List Char
  | [], _ => []
  | prompt :: rest, hist =>
    let hist1 := hist ++ [Turn.user prompt]
    let resp := backend hist1
    let hist2 := if resp = [] then hist1 else hist1 ++ [Turn.assistant resp]
    format_chunk resp ++ openaiSoloRun backend rest hist2

/-- Two interleaved OpenAI sessions, each with its own local
`chat_history` (`hA`, `hB`). -/
def runTwoOpenai (backend : List Turn → List Char) :
    List (Bool × List Char) → List Turn → List Turn → List Char × List Char
  | [], _, _ => ([], [])
  | (toB, prompt) :: rest, hA, hB =>
    if toB then
      let hist1 := hB ++ [Turn.user prompt]
      let resp := backend hist1
      let hist2 := if resp = [] then hist1 else hist1 ++ [Turn.assistant resp]
      let out := runTwoOpenai backend rest hA hist2
      (out.1, format_chunk resp ++ out.2)
    else
      let hist1 := hA ++ [Turn.user prompt]
      let resp := backend hist1
      let hist2 := if resp = [] then hist1 else hist1 ++ [Turn.assistant resp]
      let out := runTwoOpenai backend rest hist2 hB
      (format_chunk resp ++ out.1, out.2)

/-- C5, counterexample.  Two Gemini sessions: session A sends one
prompt, then session B sends `"q"`.  With a history-echoing backend the
bytes B receives differ according to whether A sent `"x"` or `"y"` —
B's received bytes are not independent of the prompts entered in A's
session, because both sessions speak through the one global chat
handle. -/
theorem gemini_sessions_interfere :
    (runTwoGemini echoBackend
        [(false, ("x").toList), (true, ("q").toList)] []).2 ≠
      (runTwoGemini echoBackend
        [(false, ("y").toList), (true, ("q").toList)] []).2 := by
  decide

/-- C5, amended.  On the OpenAI platform conversation state is genuinely
session-local: for every backend, every schedule and every pair of
initial histories, the bytes session B receives are exactly those of B
running alone on its own prompt subsequence — they do not depend on
session A's prompts or activity.  (On Gemini this fails, see the
counterexample: the chat handle is process-global; the spinner stop
event is also process-global, line 157.) -/
theorem openai_sessions_independent :
    ∀ (backend : List Turn → List Char) (sched : List (Bool × List Char))
      (hA hB : List Turn),
      (runTwoOpenai backend sched hA hB).2 =
        openaiSoloRun backend ((sched.filter (·.1)).map (·.2)) hB := by
  intro backend sched
  induction sched with
  | nil =>
    intro hA hB
    rfl
  | cons entry rest ih =>
    intro hA hB
    rcases entry with ⟨toB, prompt⟩
    cases toB with
    | false =>
      show (runTwoOpenai backend ((false, prompt) :: rest) hA hB).2 = _
      unfold runTwoOpenai
      simp only [if_neg (by simp : ¬ (false, prompt).1 = true)]
      rw [show ((false, prompt) :: rest).filter (·.1) = rest.filter (·.1) by
        simp [List.filter_cons]]
      exact ih _ hB
    | true =>
      show (runTwoOpenai backend ((true, prompt) :: rest) hA hB).2 = _
      unfold runTwoOpenai
      rw [show ((true, prompt) :: rest).filter (·.1) = (true, prompt) :: rest.filter (·.1) by
        simp [List.filter_cons]]
      simp only [List.map_cons]
      unfold openaiSoloRun
      simp only []
      rw [ih]
      simp

end VintageAI
